import Mathlib

/-!
Shallow embedding of `src/processor.py` (threshold secret-sharing
reconstruction): integer-exact Lagrange interpolation at x = 0
(`lagrange_constant_term`) and the consensus engine (`solve_secret`),
together with theorems about their behaviour.
-/

namespace Processor

/-- Error kinds raised by `lagrange_constant_term` (all are `ValueError`
in the Python source; distinguished here by their message/meaning). -/
inductive InterpError where
  | duplicateAbscissa
  | zeroDenominator
  | nonIntegerResult
deriving DecidableEq, Repr

/-- Fatal error kinds surfaced by `solve_secret` (after JSON loading). -/
inductive SolveError where
  | invalidParameters
  | insufficientShares
  | noConsistentSecret
deriving DecidableEq, Repr

/-- `points[m][0]` — the x-coordinate of the m-th point. -/
def xc (points : List (Int × Int)) (m : Nat) : Int :=
  (points.getD m (0, 0)).1

/-- `points[m][1]` — the y-coordinate of the m-th point. -/
def yc (points : List (Int × Int)) (m : Nat) : Int :=
  (points.getD m (0, 0)).2

/-- The inner loop of `lagrange_constant_term` (processor.py lines
104-113): for fixed `j`, runs over the index list `ms` accumulating
`numerator_product` and `denominator_product`, raising
`DuplicateAbscissa` as soon as `xj - xm == 0` for some `m ≠ j`. -/
def lagrangeInner (points : List (Int × Int)) (xj : Int) (j : Nat) :
    List Nat → Int × Int → Except InterpError (Int × Int)
  | [], acc => .ok acc
  | m :: ms, (np, dp) =>
    if m = j then lagrangeInner points xj j ms (np, dp)
    else
      let xm := xc points m
      if xj - xm = 0 then .error .duplicateAbscissa
      else lagrangeInner points xj j ms (np * (-xm), dp * (xj - xm))

/-- The outer loop of `lagrange_constant_term` (processor.py lines
97-131): for each `j` computes the two products, checks the denominator,
checks exact divisibility with Python's floored `%` (`Int.fmod`), and
accumulates `secret += yj * (numerator // denominator)` with Python's
floored `//` (`Int.fdiv`). -/
def lagrangeOuter (points : List (Int × Int)) :
    List Nat → Int → Except InterpError Int
  | [], secret => .ok secret
  | j :: js, secret =>
    match lagrangeInner points (xc points j) j (List.range points.length) (1, 1) with
    | .error e => .error e
    | .ok (np, dp) =>
      if dp = 0 then .error .zeroDenominator
      else if np.fmod dp ≠ 0 then .error .nonIntegerResult
      else lagrangeOuter points js (secret + yc points j * np.fdiv dp)

/-- `lagrange_constant_term(points)` (processor.py lines 78-133):
computes P(0) by Lagrange interpolation over the integers, or raises. -/
def lagrange_constant_term (points : List (Int × Int)) : Except InterpError Int :=
  lagrangeOuter points (List.range points.length) 0

/-- `itertools.combinations(l, k)`: all k-element sublists of `l` in the
order Python enumerates them (lexicographic by position). -/
def combinations {α : Type} : Nat → List α → List (List α)
  | 0, _ => [[]]
  | _ + 1, [] => []
  | r + 1, a :: as => (combinations r as).map (a :: ·) ++ combinations (r + 1) as

/-- One `secret_candidates[candidate_secret] += 1` step on a
`collections.Counter`, modelled as an insertion-ordered association
list: an existing key keeps its position, a new key is appended. -/
def tallyAdd (t : List (Int × Nat)) (v : Int) : List (Int × Nat) :=
  match t with
  | [] => [(v, 1)]
  | (a, c) :: rest => if a = v then (a, c + 1) :: rest else (a, c) :: tallyAdd rest v

/-- `Counter.most_common(1)[0]`: the first entry (in insertion order)
whose count is maximal — later entries replace it only with a strictly
larger count, matching Python's `max`/stable `nlargest`. -/
def mostCommon : List (Int × Nat) → Option (Int × Nat)
  | [] => none
  | (v, c) :: rest =>
    match mostCommon rest with
    | none => some (v, c)
    | some (v', c') => if c' > c then some (v', c') else some (v, c)

/-- The frequency tally built by the consensus loop of `solve_secret`
(processor.py lines 189-204): each k-combination is interpolated; on
success its candidate secret gets one vote, on `ValueError` the
combination is silently skipped. -/
def buildTally (k : Nat) (shares : List (Int × Int)) : List (Int × Nat) :=
  (combinations k shares).foldl
    (fun t c =>
      match lagrange_constant_term c with
      | .ok s => tallyAdd t s
      | .error _ => t) []

/-- `solve_secret` after JSON loading and share resolution
(processor.py lines 164-216): parameter check `1 <= k <= n`, share-count
check, consensus vote over all k-combinations, and extraction of the
most frequent candidate. -/
def solve_secret (n k : Int) (shares : List (Int × Int)) : Except SolveError Int :=
  if ¬(1 ≤ k ∧ k ≤ n) then .error .invalidParameters
  else if (shares.length : Int) < k then .error .insufficientShares
  else
    match mostCommon (buildTally k.toNat shares) with
    | none => .error .noConsistentSecret
    | some (v, _) => .ok v

end Processor

namespace Processor

/-- Pairwise-distinct x-coordinates, stated on positions. -/
def DistinctX (points : List (Int × Int)) : Prop :=
  ∀ i j, i < points.length → j < points.length → xc points i = xc points j → i = j

/-- `numerator_j = product over m ≠ j of (-x_m)`. -/
def numProd (points : List (Int × Int)) (j : Nat) : Int :=
  ∏ m ∈ (Finset.range points.length).erase j, (-(xc points m))

/-- `denominator_j = product over m ≠ j of (x_j - x_m)`. -/
def denProd (points : List (Int × Int)) (j : Nat) : Int :=
  ∏ m ∈ (Finset.range points.length).erase j, (xc points j - xc points m)

/-- The candidate secrets, in enumeration order: one entry per k-subset
whose interpolation succeeds. -/
def candidateSecrets (k : Nat) (shares : List (Int × Int)) : List Int :=
  (combinations k shares).filterMap (fun c => (lagrange_constant_term c).toOption)

/-- Total count a value holds in a tally (summing over all entries). -/
def tallyCount : List (Int × Nat) → Int → Nat
  | [], _ => 0
  | (a, c) :: t, w => (if a = w then c else 0) + tallyCount t w

/-- The tally's keys are pairwise distinct. -/
def TallyKeysNodup (t : List (Int × Nat)) : Prop :=
  (t.map Prod.fst).Nodup

lemma list_range_map_prod (f : Nat → Int) (n : Nat) :
    ((List.range n).map f).prod = ∏ m ∈ Finset.range n, f m := by
  induction n with
  | zero => simp
  | succ n ih =>
    rw [List.range_succ, List.map_append, List.prod_append, Finset.prod_range_succ, ih]
    simp

lemma list_range_map_sum (f : Nat → Int) (n : Nat) :
    ((List.range n).map f).sum = ∑ m ∈ Finset.range n, f m := by
  induction n with
  | zero => simp
  | succ n ih =>
    rw [List.range_succ, List.map_append, List.sum_append, Finset.sum_range_succ, ih]
    simp

lemma list_range_map_prod_if (f : Nat → Int) (n j : Nat) :
    ((List.range n).map (fun m => if m = j then 1 else f m)).prod =
      ∏ m ∈ (Finset.range n).erase j, f m := by
  rw [list_range_map_prod]
  rw [← Finset.prod_erase (Finset.range n) (show (if j = j then 1 else f j) = 1 by simp)]
  refine Finset.prod_congr rfl fun x hx => ?_
  rw [Finset.mem_erase] at hx
  simp [hx.1]

lemma lagrangeInner_eq_ok (points : List (Int × Int)) (j : Nat) (ms : List Nat)
    (h : ∀ m ∈ ms, m ≠ j → xc points j - xc points m ≠ 0) (np dp : Int) :
    lagrangeInner points (xc points j) j ms (np, dp) =
      .ok (np * ((ms.map (fun m => if m = j then 1 else -(xc points m))).prod),
           dp * ((ms.map (fun m => if m = j then 1 else xc points j - xc points m)).prod)) := by
  induction ms generalizing np dp with
  | nil => simp [lagrangeInner]
  | cons m ms ih =>
    by_cases hm : m = j
    · subst hm
      rw [lagrangeInner, if_pos rfl]
      rw [ih (fun a ha hne => h a (List.mem_cons_of_mem _ ha) hne)]
      simp
    · have hne : xc points j - xc points m ≠ 0 := h m (List.mem_cons_self _ _) hm
      rw [lagrangeInner]
      simp only [if_neg hm, if_neg hne]
      rw [ih (fun a ha hane => h a (List.mem_cons_of_mem _ ha) hane)]
      simp only [List.map_cons, List.prod_cons, if_neg hm]
      rw [mul_assoc, mul_assoc]

lemma lagrangeInner_range_ok (points : List (Int × Int)) (j : Nat)
    (h : ∀ m, m < points.length → m ≠ j → xc points j - xc points m ≠ 0) :
    lagrangeInner points (xc points j) j (List.range points.length) (1, 1) =
      .ok (numProd points j, denProd points j) := by
  rw [lagrangeInner_eq_ok points j _ (fun m hm => h m (List.mem_range.mp hm))]
  rw [list_range_map_prod_if, list_range_map_prod_if, one_mul, one_mul]
  rfl

lemma lagrangeInner_dp_ne_zero (points : List (Int × Int)) (xj : Int) (j : Nat)
    (ms : List Nat) (np dp np' dp' : Int)
    (h : lagrangeInner points xj j ms (np, dp) = .ok (np', dp')) (hdp : dp ≠ 0) :
    dp' ≠ 0 := by
  induction ms generalizing np dp with
  | nil =>
    rw [lagrangeInner] at h
    cases h
    exact hdp
  | cons m ms ih =>
    rw [lagrangeInner] at h
    by_cases hm : m = j
    · rw [if_pos hm] at h
      exact ih np dp h hdp
    · rw [if_neg hm] at h
      by_cases hz : xj - xc points m = 0
      · rw [if_pos hz] at h
        cases h
      · rw [if_neg hz] at h
        exact ih _ _ h (mul_ne_zero hdp hz)

lemma lagrangeInner_error_of_collision (points : List (Int × Int)) (j : Nat)
    (ms : List Nat) (acc : Int × Int)
    (h : ∃ m ∈ ms, m ≠ j ∧ xc points j - xc points m = 0) :
    lagrangeInner points (xc points j) j ms acc = .error .duplicateAbscissa := by
  induction ms generalizing acc with
  | nil => simp at h
  | cons m ms ih =>
    obtain ⟨a, ha, hane, haz⟩ := h
    obtain ⟨np, dp⟩ := acc
    rw [lagrangeInner]
    rcases List.mem_cons.mp ha with rfl | ha
    · rw [if_neg hane, if_pos haz]
    · by_cases hm : m = j
      · rw [if_pos hm]
        exact ih _ ⟨a, ha, hane, haz⟩
      · by_cases hz : xc points j - xc points m = 0
        · rw [if_neg hm, if_pos hz]
        · rw [if_neg hm, if_neg hz]
          exact ih _ ⟨a, ha, hane, haz⟩

lemma lagrangeInner_error_kind (points : List (Int × Int)) (xj : Int) (j : Nat)
    (ms : List Nat) (acc : Int × Int) (e : InterpError)
    (h : lagrangeInner points xj j ms acc = .error e) :
    e = .duplicateAbscissa := by
  induction ms generalizing acc with
  | nil =>
    rw [lagrangeInner] at h
    cases h
  | cons m ms ih =>
    obtain ⟨np, dp⟩ := acc
    rw [lagrangeInner] at h
    by_cases hm : m = j
    · rw [if_pos hm] at h
      exact ih _ h
    · rw [if_neg hm] at h
      by_cases hz : xj - xc points m = 0
      · rw [if_pos hz] at h
        cases h
        rfl
      · rw [if_neg hz] at h
        exact ih _ h

end Processor

namespace Processor

lemma fmod_eq_zero_iff_dvd (a b : Int) : a.fmod b = 0 ↔ b ∣ a := by
  constructor
  · intro h
    have h2 := Int.fmod_add_fdiv a b
    rw [h, zero_add] at h2
    exact ⟨a.fdiv b, h2.symm⟩
  · rintro ⟨c, rfl⟩
    exact Int.mul_fmod_right b c

lemma cast_fdiv_of_dvd (a b : Int) (h : b ∣ a) :
    ((a.fdiv b : Int) : ℚ) = (a : ℚ) / (b : ℚ) := by
  obtain ⟨c, rfl⟩ := h
  by_cases hb : b = 0
  · subst hb
    simp [Int.zero_fdiv]
  · rw [Int.mul_fdiv_cancel_left c hb]
    have hbq : (b : ℚ) ≠ 0 := Int.cast_ne_zero.mpr hb
    push_cast
    rw [mul_div_cancel_left₀ _ hbq]

lemma denProd_ne_zero (points : List (Int × Int)) (j : Nat)
    (hd : DistinctX points) (hj : j < points.length) :
    denProd points j ≠ 0 := by
  rw [denProd, Finset.prod_ne_zero_iff]
  intro m hm
  rw [Finset.mem_erase, Finset.mem_range] at hm
  intro hz
  exact hm.1 (hd m j hm.2 hj (by linarith [sub_eq_zero.mp hz]))

lemma lagrangeOuter_of_distinct (points : List (Int × Int))
    (hd : DistinctX points) (js : List Nat)
    (hjs : ∀ j ∈ js, j < points.length) (s : Int) :
    lagrangeOuter points js s =
      if ∀ j ∈ js, denProd points j ∣ numProd points j
      then .ok (s + (js.map (fun j =>
        yc points j * (numProd points j).fdiv (denProd points j))).sum)
      else .error .nonIntegerResult := by
  induction js generalizing s with
  | nil => simp [lagrangeOuter]
  | cons j js ih =>
    have hj : j < points.length := hjs j (List.mem_cons_self _ _)
    have hcol : ∀ m, m < points.length → m ≠ j → xc points j - xc points m ≠ 0 := by
      intro m hm hmj hz
      exact hmj (hd m j hm hj (by linarith [sub_eq_zero.mp hz]))
    rw [lagrangeOuter, lagrangeInner_range_ok points j hcol]
    have hden : denProd points j ≠ 0 := denProd_ne_zero points j hd hj
    dsimp only
    rw [if_neg hden]
    by_cases hdvd : denProd points j ∣ numProd points j
    · have hfmod : (numProd points j).fmod (denProd points j) = 0 :=
        (fmod_eq_zero_iff_dvd _ _).mpr hdvd
      rw [if_neg (by simpa using hfmod)]
      rw [ih (fun a ha => hjs a (List.mem_cons_of_mem _ ha))]
      by_cases htail : ∀ a ∈ js, denProd points a ∣ numProd points a
      · rw [if_pos htail, if_pos (by simpa [List.forall_mem_cons] using ⟨hdvd, htail⟩)]
        simp [add_assoc]
      · rw [if_neg htail,
          if_neg (by simp only [List.forall_mem_cons]; exact fun hc => htail hc.2)]
    · have hfmod : (numProd points j).fmod (denProd points j) ≠ 0 :=
        fun hc => hdvd ((fmod_eq_zero_iff_dvd _ _).mp hc)
      rw [if_pos (by simpa using hfmod),
        if_neg (by simp only [List.forall_mem_cons]; exact fun hc => hdvd hc.1)]

/-- Behaviour of `lagrange_constant_term` on pairwise-distinct
x-coordinates: the exact sum when every term divides evenly, and
`NonIntegerResult` otherwise. -/
lemma lagrange_spec_of_distinct (points : List (Int × Int)) (hd : DistinctX points) :
    lagrange_constant_term points =
      if ∀ j ∈ Finset.range points.length, denProd points j ∣ numProd points j
      then .ok (∑ j ∈ Finset.range points.length,
        yc points j * (numProd points j).fdiv (denProd points j))
      else .error .nonIntegerResult := by
  rw [lagrange_constant_term,
    lagrangeOuter_of_distinct points hd _ (fun a ha => List.mem_range.mp ha) 0]
  rw [list_range_map_sum]
  by_cases h : ∀ j ∈ Finset.range points.length, denProd points j ∣ numProd points j
  · rw [if_pos (fun a ha => h a (List.mem_range.mpr (by simpa using ha))), if_pos h,
      zero_add]
  · rw [if_neg (fun hc => h (fun a ha => hc a (by simpa using Finset.mem_range.mp ha))),
      if_neg h]

lemma lagrangeOuter_error_of_dup (points : List (Int × Int)) (p q : Nat)
    (hp : p < points.length) (hq : q < points.length) (hpq : p ≠ q)
    (hx : xc points p = xc points q) (js : List Nat) (hmem : p ∈ js) (s : Int) :
    lagrangeOuter points js s = .error .duplicateAbscissa ∨
      lagrangeOuter points js s = .error .nonIntegerResult := by
  induction js generalizing s with
  | nil => simp at hmem
  | cons j js ih =>
    rw [lagrangeOuter]
    rcases hr : lagrangeInner points (xc points j) j (List.range points.length) (1, 1)
      with e | r
    · left
      rw [lagrangeInner_error_kind points _ j _ _ e hr]
    · obtain ⟨np, dp⟩ := r
      have hdp : dp ≠ 0 :=
        lagrangeInner_dp_ne_zero points _ j _ 1 1 np dp hr one_ne_zero
      dsimp only
      rw [if_neg hdp]
      by_cases hfm : np.fmod dp ≠ 0
      · right
        rw [if_pos hfm]
      · rw [if_neg hfm]
        have hpj : p ≠ j := by
          rintro rfl
          rw [lagrangeInner_error_of_collision points p _ _
            ⟨q, List.mem_range.mpr hq, Ne.symm hpq, by rw [hx, sub_self]⟩] at hr
          cases hr
        exact ih (List.mem_of_ne_of_mem hpj hmem) _

/-- With a duplicated x-coordinate the interpolation always raises,
with kind `DuplicateAbscissa` or `NonIntegerResult`. -/
lemma lagrange_error_of_dup (points : List (Int × Int)) (p q : Nat)
    (hp : p < points.length) (hq : q < points.length) (hpq : p ≠ q)
    (hx : xc points p = xc points q) :
    lagrange_constant_term points = .error .duplicateAbscissa ∨
      lagrange_constant_term points = .error .nonIntegerResult :=
  lagrangeOuter_error_of_dup points p q hp hq hpq hx _ (List.mem_range.mpr hp) 0

lemma distinct_of_ok (points : List (Int × Int)) (v : Int)
    (h : lagrange_constant_term points = .ok v) : DistinctX points := by
  by_contra hnd
  rw [DistinctX] at hnd
  push_neg at hnd
  obtain ⟨i, j, hi, hj, hx, hij⟩ := hnd
  rcases lagrange_error_of_dup points i j hi hj hij hx with he | he <;>
    rw [he] at h <;> cases h

end Processor

namespace Processor

lemma rat_lagrange_eval_zero (k : Nat) (v : Nat → ℚ)
    (hinj : Set.InjOn v (Finset.range k))
    (f : Polynomial ℚ) (hdeg : f.degree < k) :
    ∑ j ∈ Finset.range k, Polynomial.eval (v j) f *
      ((∏ m ∈ (Finset.range k).erase j, (-(v m))) /
        (∏ m ∈ (Finset.range k).erase j, (v j - v m))) = Polynomial.eval 0 f := by
  have h := Lagrange.eq_interpolate hinj (by simpa using hdeg)
  conv_rhs => rw [h]
  rw [Lagrange.interpolate_apply, Polynomial.eval_finset_sum]
  refine Finset.sum_congr rfl fun j hj => ?_
  rw [Polynomial.eval_mul, Polynomial.eval_C]
  congr 1
  rw [Lagrange.basis, Polynomial.eval_prod, div_eq_mul_inv, ← Finset.prod_inv_distrib,
    ← Finset.prod_mul_distrib]
  refine (Finset.prod_congr rfl fun m hm => ?_).symm
  rw [Lagrange.basisDivisor, Polynomial.eval_mul, Polynomial.eval_C, Polynomial.eval_sub,
    Polynomial.eval_X, Polynomial.eval_C]
  ring


lemma eval_map_cast (P : Polynomial ℤ) (a : ℤ) :
    (P.map (Int.castRingHom ℚ)).eval ((a : ℤ) : ℚ) = ((P.eval a : ℤ) : ℚ) := by
  rw [Polynomial.eval_map]
  exact Polynomial.eval₂_at_apply _ a

/-- When the x-coordinates are distinct, the points sample an
integer-coefficient polynomial `P` of degree `< k`, and every Lagrange
term divides evenly, the computed integer sum is exactly `P(0)`. -/
lemma exact_sum_eq_eval_zero (P : Polynomial ℤ) (points : List (Int × Int))
    (hdeg : P.degree < points.length) (hd : DistinctX points)
    (hy : ∀ j, j < points.length → yc points j = P.eval (xc points j))
    (hdvd : ∀ j ∈ Finset.range points.length, denProd points j ∣ numProd points j) :
    ∑ j ∈ Finset.range points.length,
      yc points j * (numProd points j).fdiv (denProd points j) = P.eval 0 := by
  have hinj : Set.InjOn (fun m => ((xc points m : Int) : ℚ))
      (Finset.range points.length) := by
    intro a ha b hb hab
    have hab2 : ((xc points a : Int) : ℚ) = ((xc points b : Int) : ℚ) := hab
    exact hd a b (by simpa using ha) (by simpa using hb) (by exact_mod_cast hab2)
  have hcast : ((∑ j ∈ Finset.range points.length,
      yc points j * (numProd points j).fdiv (denProd points j) : Int) : ℚ) =
      ((P.eval 0 : Int) : ℚ) := by
    rw [Int.cast_sum]
    have hstep : ∀ j ∈ Finset.range points.length,
        ((yc points j * (numProd points j).fdiv (denProd points j) : Int) : ℚ) =
          Polynomial.eval ((xc points j : Int) : ℚ) (P.map (Int.castRingHom ℚ)) *
            ((∏ m ∈ (Finset.range points.length).erase j, (-((xc points m : Int) : ℚ))) /
              (∏ m ∈ (Finset.range points.length).erase j,
                (((xc points j : Int) : ℚ) - ((xc points m : Int) : ℚ)))) := by
      intro j hj
      have hnum : ((numProd points j : Int) : ℚ) =
          ∏ m ∈ (Finset.range points.length).erase j, (-((xc points m : Int) : ℚ)) := by
        rw [numProd]
        push_cast
        rfl
      have hden : ((denProd points j : Int) : ℚ) =
          ∏ m ∈ (Finset.range points.length).erase j,
            (((xc points j : Int) : ℚ) - ((xc points m : Int) : ℚ)) := by
        rw [denProd]
        push_cast
        rfl
      rw [Int.cast_mul, cast_fdiv_of_dvd _ _ (hdvd j hj), eval_map_cast P (xc points j),
        ← hy j (Finset.mem_range.mp hj), hnum, hden]
    rw [Finset.sum_congr rfl hstep]
    rw [rat_lagrange_eval_zero points.length (fun m => ((xc points m : Int) : ℚ)) hinj
      (P.map (Int.castRingHom ℚ))
      (by rw [Polynomial.degree_map_eq_of_injective Int.cast_injective]; exact hdeg)]
    have h0 : ((0 : ℚ)) = (((0 : Int) : Int) : ℚ) := by norm_num
    rw [h0, eval_map_cast P 0]
  exact_mod_cast hcast

end Processor

namespace Processor

lemma foldl_interp_eq (l : List (List (Int × Int))) (t : List (Int × Nat)) :
    l.foldl (fun t c =>
      match lagrange_constant_term c with
      | .ok s => tallyAdd t s
      | .error _ => t) t =
      (l.filterMap (fun c => (lagrange_constant_term c).toOption)).foldl tallyAdd t := by
  induction l generalizing t with
  | nil => simp
  | cons c l ih =>
    rcases hc : lagrange_constant_term c with e | s <;>
      simp [List.filterMap_cons, hc, Except.toOption, ih]

lemma buildTally_eq_foldl (k : Nat) (shares : List (Int × Int)) :
    buildTally k shares = (candidateSecrets k shares).foldl tallyAdd [] := by
  rw [buildTally, candidateSecrets, foldl_interp_eq]

lemma tallyAdd_ne_nil (t : List (Int × Nat)) (v : Int) : tallyAdd t v ≠ [] := by
  match t with
  | [] => simp [tallyAdd]
  | (a, c) :: rest =>
    rw [tallyAdd]
    split <;> simp

lemma tallyCount_tallyAdd (t : List (Int × Nat)) (v w : Int) :
    tallyCount (tallyAdd t v) w = tallyCount t w + (if v = w then 1 else 0) := by
  induction t with
  | nil => simp [tallyAdd, tallyCount]
  | cons e t ih =>
    obtain ⟨a, c⟩ := e
    rw [tallyAdd]
    by_cases ha : a = v
    · subst ha
      rw [if_pos rfl]
      by_cases hw : a = w
      · subst hw
        rw [tallyCount, tallyCount, if_pos rfl, if_pos rfl, if_pos rfl]
        omega
      · rw [tallyCount, tallyCount, if_neg hw, if_neg hw, if_neg hw]
        omega
    · rw [if_neg ha, tallyCount, tallyCount, ih]
      omega

lemma mem_keys_tallyAdd (t : List (Int × Nat)) (v w : Int)
    (h : w ∈ (tallyAdd t v).map Prod.fst) : w ∈ t.map Prod.fst ∨ w = v := by
  induction t with
  | nil => simpa [tallyAdd] using h
  | cons e t ih =>
    obtain ⟨a, c⟩ := e
    rw [tallyAdd] at h
    by_cases ha : a = v
    · rw [if_pos ha] at h
      left
      simpa using h
    · rw [if_neg ha] at h
      simp only [List.map_cons, List.mem_cons] at h ⊢
      rcases h with h | h
      · exact Or.inl (Or.inl h)
      · rcases ih h with h2 | h2
        · exact Or.inl (Or.inr h2)
        · exact Or.inr h2

lemma keys_nodup_tallyAdd (t : List (Int × Nat)) (v : Int)
    (h : TallyKeysNodup t) : TallyKeysNodup (tallyAdd t v) := by
  induction t with
  | nil => simp [tallyAdd, TallyKeysNodup]
  | cons e t ih =>
    obtain ⟨a, c⟩ := e
    rw [TallyKeysNodup, List.map_cons, List.nodup_cons] at h
    rw [TallyKeysNodup, tallyAdd]
    by_cases ha : a = v
    · rw [if_pos ha, List.map_cons, List.nodup_cons]
      exact ⟨h.1, h.2⟩
    · rw [if_neg ha, List.map_cons, List.nodup_cons]
      refine ⟨fun hmem => ?_, ih h.2⟩
      rcases mem_keys_tallyAdd t v a hmem with h2 | h2
      · exact h.1 h2
      · exact ha h2

lemma mostCommon_eq_none_iff (t : List (Int × Nat)) :
    mostCommon t = none ↔ t = [] := by
  match t with
  | [] => simp [mostCommon]
  | (v, c) :: rest =>
    rw [mostCommon]
    rcases h : mostCommon rest with _ | e
    · simp
    · obtain ⟨v', c'⟩ := e
      dsimp only
      constructor
      · intro hc
        split at hc <;> cases hc
      · intro hc
        cases hc

lemma mostCommon_mem (t : List (Int × Nat)) (e : Int × Nat)
    (h : mostCommon t = some e) : e ∈ t := by
  induction t generalizing e with
  | nil => simp [mostCommon] at h
  | cons f t ih =>
    obtain ⟨v, c⟩ := f
    rw [mostCommon] at h
    rcases hr : mostCommon t with _ | e'
    · rw [hr] at h
      cases h
      exact List.mem_cons_self _ _
    · obtain ⟨v', c'⟩ := e'
      rw [hr] at h
      dsimp only at h
      by_cases hc : c' > c
      · rw [if_pos hc] at h
        cases h
        exact List.mem_cons_of_mem _ (ih _ hr)
      · rw [if_neg hc] at h
        cases h
        exact List.mem_cons_self _ _

lemma mostCommon_max (t : List (Int × Nat)) (v : Int) (c : Nat)
    (h : mostCommon t = some (v, c)) : ∀ e ∈ t, e.2 ≤ c := by
  induction t generalizing v c with
  | nil => simp [mostCommon] at h
  | cons f t ih =>
    obtain ⟨a, b⟩ := f
    rw [mostCommon] at h
    rcases hr : mostCommon t with _ | e'
    · rw [hr] at h
      cases h
      rw [mostCommon_eq_none_iff] at hr
      subst hr
      simp
    · obtain ⟨v', c'⟩ := e'
      rw [hr] at h
      dsimp only at h
      intro e he
      rcases List.mem_cons.mp he with rfl | he
      · by_cases hc : c' > b
        · rw [if_pos hc] at h
          cases h
          dsimp only
          omega
        · rw [if_neg hc] at h
          cases h
          rfl
      · have hle := ih v' c' hr e he
        by_cases hc : c' > b
        · rw [if_pos hc] at h
          cases h
          exact hle
        · rw [if_neg hc] at h
          cases h
          omega

lemma tallyCount_eq_zero_of_not_key (t : List (Int × Nat)) (w : Int)
    (h : w ∉ t.map Prod.fst) : tallyCount t w = 0 := by
  induction t with
  | nil => rfl
  | cons e t ih =>
    obtain ⟨a, b⟩ := e
    simp only [List.map_cons, List.mem_cons] at h
    push_neg at h
    rw [tallyCount, if_neg (fun hh => h.1 hh.symm), ih h.2]

lemma tallyCount_eq_of_mem (t : List (Int × Nat)) (w : Int) (c : Nat)
    (hnd : TallyKeysNodup t) (h : (w, c) ∈ t) : tallyCount t w = c := by
  induction t with
  | nil => simp at h
  | cons e t ih =>
    obtain ⟨a, b⟩ := e
    rw [TallyKeysNodup, List.map_cons, List.nodup_cons] at hnd
    rcases List.mem_cons.mp h with he | he
    · cases he
      rw [tallyCount, if_pos rfl, tallyCount_eq_zero_of_not_key t w hnd.1]
      omega
    · have haw : a ≠ w := by
        rintro rfl
        exact hnd.1 (List.mem_map.mpr ⟨(a, c), he, rfl⟩)
      rw [tallyCount, if_neg haw, ih hnd.2 he]
      omega

lemma foldl_tallyAdd_count (l : List Int) (t : List (Int × Nat)) (w : Int) :
    tallyCount (l.foldl tallyAdd t) w = tallyCount t w + l.count w := by
  induction l generalizing t with
  | nil => simp
  | cons a l ih =>
    rw [List.foldl_cons, ih, tallyCount_tallyAdd, List.count_cons]
    by_cases ha : a = w
    · subst ha
      simp
      omega
    · simp [ha, Ne.symm ha]

lemma foldl_tallyAdd_keys_nodup (l : List Int) (t : List (Int × Nat))
    (h : TallyKeysNodup t) : TallyKeysNodup (l.foldl tallyAdd t) := by
  induction l generalizing t with
  | nil => exact h
  | cons a l ih => exact ih _ (keys_nodup_tallyAdd t a h)

lemma foldl_tallyAdd_keys_sub (l : List Int) (t : List (Int × Nat)) (w : Int)
    (h : w ∈ (l.foldl tallyAdd t).map Prod.fst) :
    w ∈ t.map Prod.fst ∨ w ∈ l := by
  induction l generalizing t with
  | nil => exact Or.inl h
  | cons a l ih =>
    rw [List.foldl_cons] at h
    rcases ih _ h with h2 | h2
    · rcases mem_keys_tallyAdd t a w h2 with h3 | h3
      · exact Or.inl h3
      · exact Or.inr (h3 ▸ List.mem_cons_self _ _)
    · exact Or.inr (List.mem_cons_of_mem _ h2)

lemma foldl_tallyAdd_ne_nil (l : List Int) (t : List (Int × Nat))
    (h : t ≠ [] ∨ l ≠ []) : l.foldl tallyAdd t ≠ [] := by
  induction l generalizing t with
  | nil =>
    rcases h with h | h
    · simpa using h
    · simp at h
  | cons a l ih =>
    rw [List.foldl_cons]
    exact ih _ (Or.inl (tallyAdd_ne_nil t a))

end Processor

namespace Processor

lemma toOption_eq_some_iff (r : Except InterpError Int) (v : Int) :
    r.toOption = some v ↔ r = .ok v := by
  rcases r with e | s <;> simp [Except.toOption]

lemma toOption_eq_none_iff (r : Except InterpError Int) :
    r.toOption = none ↔ ∃ e, r = .error e := by
  rcases r with e | s <;> simp [Except.toOption]

lemma buildTally_keys_nodup (k : Nat) (shares : List (Int × Int)) :
    TallyKeysNodup (buildTally k shares) := by
  rw [buildTally_eq_foldl]
  exact foldl_tallyAdd_keys_nodup _ _ (by simp [TallyKeysNodup])

lemma buildTally_count (k : Nat) (shares : List (Int × Int)) (w : Int) :
    tallyCount (buildTally k shares) w = (candidateSecrets k shares).count w := by
  rw [buildTally_eq_foldl, foldl_tallyAdd_count]
  simp [tallyCount]

lemma buildTally_eq_nil_iff (k : Nat) (shares : List (Int × Int)) :
    buildTally k shares = [] ↔ candidateSecrets k shares = [] := by
  rw [buildTally_eq_foldl]
  constructor
  · intro h
    by_contra hne
    exact foldl_tallyAdd_ne_nil _ [] (Or.inr hne) h
  · intro h
    rw [h]
    rfl

lemma candidateSecrets_eq_nil_iff (k : Nat) (shares : List (Int × Int)) :
    candidateSecrets k shares = [] ↔
      ∀ c ∈ combinations k shares, ∃ e, lagrange_constant_term c = .error e := by
  rw [candidateSecrets, List.filterMap_eq_nil_iff]
  constructor
  · intro h c hc
    exact (toOption_eq_none_iff _).mp (h c hc)
  · intro h c hc
    exact (toOption_eq_none_iff _).mpr (h c hc)

lemma buildTally_key_mem (k : Nat) (shares : List (Int × Int)) (v : Int) (c : Nat)
    (h : (v, c) ∈ buildTally k shares) : v ∈ candidateSecrets k shares := by
  have hkey : v ∈ (buildTally k shares).map Prod.fst :=
    List.mem_map.mpr ⟨(v, c), h, rfl⟩
  rw [buildTally_eq_foldl] at hkey
  rcases foldl_tallyAdd_keys_sub _ _ _ hkey with h2 | h2
  · simp at h2
  · exact h2

lemma solve_secret_ok_elim (n k : Int) (shares : List (Int × Int)) (v : Int)
    (h : solve_secret n k shares = .ok v) :
    ∃ c, mostCommon (buildTally k.toNat shares) = some (v, c) := by
  rw [solve_secret] at h
  by_cases h1 : ¬(1 ≤ k ∧ k ≤ n)
  · rw [if_pos h1] at h
    cases h
  · rw [if_neg h1] at h
    by_cases h2 : (shares.length : Int) < k
    · rw [if_pos h2] at h
      cases h
    · rw [if_neg h2] at h
      rcases hm : mostCommon (buildTally k.toNat shares) with _ | e
      · rw [hm] at h
        cases h
      · obtain ⟨v', c⟩ := e
        rw [hm] at h
        dsimp only at h
        cases h
        exact ⟨c, rfl⟩

lemma tallyCount_le_of_mostCommon (t : List (Int × Nat)) (v : Int) (c : Nat)
    (hnd : TallyKeysNodup t) (hm : mostCommon t = some (v, c)) (w : Int) :
    tallyCount t w ≤ c := by
  by_cases hw : w ∈ t.map Prod.fst
  · obtain ⟨e, hmem, hfst⟩ := List.mem_map.mp hw
    have he : (w, e.2) ∈ t := by
      rw [← hfst, Prod.mk.eta]
      exact hmem
    rw [tallyCount_eq_of_mem t w e.2 hnd he]
    exact mostCommon_max t v c hm _ hmem
  · rw [tallyCount_eq_zero_of_not_key t w hw]
    exact Nat.zero_le c

end Processor

namespace Processor

/-- Claim C1 (amended): for every integer-coefficient polynomial `P` of
degree `< k` and every list of `k` of its sample points with
pairwise-distinct x-coordinates, `lagrange_constant_term` either returns
`P(0)` or fails with NonIntegerResult (when some per-term division is
inexact); whenever it returns a value on such points, that value is
`P(0)`. -/
theorem claim_C1_interpolation (P : Polynomial ℤ) (points : List (Int × Int))
    (hdeg : P.degree < points.length) (hd : DistinctX points)
    (hy : ∀ j, j < points.length → yc points j = P.eval (xc points j)) :
    lagrange_constant_term points = .ok (P.eval 0) ∨
      lagrange_constant_term points = .error .nonIntegerResult := by
  rw [lagrange_spec_of_distinct points hd]
  by_cases h : ∀ j ∈ Finset.range points.length, denProd points j ∣ numProd points j
  · left
    rw [if_pos h, exact_sum_eq_eval_zero P points hdeg hd hy h]
  · right
    rw [if_neg h]

/-- Claim C1 counterexample: the polynomial `X` has integer coefficients
and degree `1 < 2`, and `[(1,1), (3,3)]` are two of its exact sample
points with distinct x-coordinates, yet `lagrange_constant_term` fails
with NonIntegerResult instead of returning `P(0) = 0`. -/
theorem claim_C1_counterexample :
    (Polynomial.X : Polynomial ℤ).degree <
      (([((1:Int), (1:Int)), (3, 3)] : List (Int × Int)).length : ℕ) ∧
    xc [((1:Int), (1:Int)), (3, 3)] 0 ≠ xc [((1:Int), (1:Int)), (3, 3)] 1 ∧
    yc [((1:Int), (1:Int)), (3, 3)] 0 =
      Polynomial.eval (xc [((1:Int), (1:Int)), (3, 3)] 0) (Polynomial.X : Polynomial ℤ) ∧
    yc [((1:Int), (1:Int)), (3, 3)] 1 =
      Polynomial.eval (xc [((1:Int), (1:Int)), (3, 3)] 1) (Polynomial.X : Polynomial ℤ) ∧
    lagrange_constant_term [((1:Int), (1:Int)), (3, 3)] = .error .nonIntegerResult := by
  refine ⟨?_, by decide, by simp [xc, yc], by simp [xc, yc], rfl⟩
  rw [Polynomial.degree_X]
  decide

/-- Claim C1 witness: the constant polynomial 7 sampled at the single
point `(4, 7)`. -/
theorem claim_C1_witness :
    lagrange_constant_term [((4:Int), (7:Int))] =
        .ok (Polynomial.eval 0 (Polynomial.C (7:Int))) ∨
      lagrange_constant_term [((4:Int), (7:Int))] = .error .nonIntegerResult :=
  claim_C1_interpolation (Polynomial.C 7) [(4, 7)]
    (lt_of_le_of_lt Polynomial.degree_C_le (by decide))
    (by
      intro i j hi hj _
      simp only [List.length_cons, List.length_nil] at hi hj
      omega)
    (by
      intro j hj
      simp only [List.length_cons, List.length_nil] at hj
      interval_cases j
      simp [yc, xc])

/-- Claim C2: whenever `lagrange_constant_term` returns a value, the
x-coordinates are pairwise distinct, every per-term division is exact,
and the value equals `sum over j of y_j * ((prod over m ≠ j of -x_m) /
(prod over m ≠ j of (x_j - x_m)))` in exact integer arithmetic. -/
theorem claim_C2_value_formula (points : List (Int × Int)) (v : Int)
    (h : lagrange_constant_term points = .ok v) :
    DistinctX points ∧
    (∀ j ∈ Finset.range points.length, denProd points j ∣ numProd points j) ∧
    v = ∑ j ∈ Finset.range points.length,
      yc points j * (numProd points j).fdiv (denProd points j) := by
  have hd := distinct_of_ok points v h
  rw [lagrange_spec_of_distinct points hd] at h
  by_cases hc : ∀ j ∈ Finset.range points.length, denProd points j ∣ numProd points j
  · rw [if_pos hc] at h
    cases h
    exact ⟨hd, hc, rfl⟩
  · rw [if_neg hc] at h
    cases h

/-- Claim C2 witness: the single point `(4, 7)`, on which the function
returns `7`. -/
theorem claim_C2_witness :
    DistinctX [((4:Int), (7:Int))] ∧
    (∀ j ∈ Finset.range ([((4:Int), (7:Int))] : List (Int × Int)).length,
      denProd [((4:Int), (7:Int))] j ∣ numProd [((4:Int), (7:Int))] j) ∧
    (7 : Int) = ∑ j ∈ Finset.range ([((4:Int), (7:Int))] : List (Int × Int)).length,
      yc [((4:Int), (7:Int))] j *
        (numProd [((4:Int), (7:Int))] j).fdiv (denProd [((4:Int), (7:Int))] j) :=
  claim_C2_value_formula [(4, 7)] 7 rfl

/-- Claim C3: when `solve_secret` returns a value `v`, the number of
k-subsets voting for `v` is at least the number voting for any other
candidate secret. -/
theorem claim_C3_winner_max (n k : Int) (shares : List (Int × Int)) (v w : Int)
    (h : solve_secret n k shares = .ok v) :
    (candidateSecrets k.toNat shares).count w ≤
      (candidateSecrets k.toNat shares).count v := by
  obtain ⟨c, hm⟩ := solve_secret_ok_elim n k shares v h
  have hnd := buildTally_keys_nodup k.toNat shares
  have hvc : tallyCount (buildTally k.toNat shares) v = c :=
    tallyCount_eq_of_mem _ _ _ hnd (mostCommon_mem _ _ hm)
  have hle := tallyCount_le_of_mostCommon _ _ _ hnd hm w
  rw [buildTally_count] at hvc hle
  exact le_of_le_of_eq hle hvc.symm

/-- Claim C3 witness: a one-share reconstruction returning `5`. -/
theorem claim_C3_witness :
    (candidateSecrets (1:Int).toNat [((2:Int), (5:Int))]).count 3 ≤
      (candidateSecrets (1:Int).toNat [((2:Int), (5:Int))]).count 5 :=
  claim_C3_winner_max 1 1 [(2, 5)] 5 3 rfl

/-- Claim C4: with valid parameters and enough shares, per-subset
interpolation failures never escape: `solve_secret` fails with
NoConsistentSecret exactly when every k-subset's interpolation fails,
and returns an integer whenever some subset succeeds. -/
theorem claim_C4_failure_policy (n k : Int) (shares : List (Int × Int))
    (h1 : 1 ≤ k) (h2 : k ≤ n) (h3 : ¬((shares.length : Int) < k)) :
    (solve_secret n k shares = .error .noConsistentSecret ↔
      ∀ c ∈ combinations k.toNat shares, ∃ e, lagrange_constant_term c = .error e) ∧
    ((∃ c ∈ combinations k.toNat shares, ∃ v, lagrange_constant_term c = .ok v) →
      ∃ v, solve_secret n k shares = .ok v) := by
  have hs : solve_secret n k shares =
      match mostCommon (buildTally k.toNat shares) with
      | none => .error .noConsistentSecret
      | some (v, _) => .ok v := by
    rw [solve_secret, if_neg (not_not_intro ⟨h1, h2⟩), if_neg h3]
  rcases hm : mostCommon (buildTally k.toNat shares) with _ | e
  · rw [hm] at hs
    have hnil : buildTally k.toNat shares = [] := (mostCommon_eq_none_iff _).mp hm
    have hall : ∀ c ∈ combinations k.toNat shares,
        ∃ e, lagrange_constant_term c = .error e :=
      (candidateSecrets_eq_nil_iff _ _).mp ((buildTally_eq_nil_iff _ _).mp hnil)
    refine ⟨⟨fun _ => hall, fun _ => hs⟩, ?_⟩
    rintro ⟨c, hc, v, hv⟩
    obtain ⟨e, he⟩ := hall c hc
    rw [hv] at he
    cases he
  · obtain ⟨v, c⟩ := e
    rw [hm] at hs
    dsimp only at hs
    constructor
    · constructor
      · intro hcontra
        rw [hs] at hcontra
        cases hcontra
      · intro hall
        exfalso
        have hnil : buildTally k.toNat shares = [] :=
          (buildTally_eq_nil_iff _ _).mpr ((candidateSecrets_eq_nil_iff _ _).mpr hall)
        rw [hnil] at hm
        simp [mostCommon] at hm
    · intro _
      exact ⟨v, hs⟩

/-- Claim C4 witness: one share `(1, 2)` with `n = k = 1`. -/
theorem claim_C4_witness :
    (solve_secret 1 1 [((1:Int), (2:Int))] = .error .noConsistentSecret ↔
      ∀ c ∈ combinations (1:Int).toNat [((1:Int), (2:Int))],
        ∃ e, lagrange_constant_term c = .error e) ∧
    ((∃ c ∈ combinations (1:Int).toNat [((1:Int), (2:Int))],
        ∃ v, lagrange_constant_term c = .ok v) →
      ∃ v, solve_secret 1 1 [((1:Int), (2:Int))] = .ok v) :=
  claim_C4_failure_policy 1 1 [(1, 2)] (by decide) (by decide) (by decide)

/-- Claim C5 (amended): a list containing two points with equal
x-coordinates always makes `lagrange_constant_term` fail — it never
returns a value — but the failure kind is DuplicateAbscissa or
NonIntegerResult (an earlier term's inexact division can preempt the
duplicate check). -/
theorem claim_C5_duplicate_fails (points : List (Int × Int)) (p q : Nat)
    (hp : p < points.length) (hq : q < points.length) (hpq : p ≠ q)
    (hx : xc points p = xc points q) :
    lagrange_constant_term points = .error .duplicateAbscissa ∨
      lagrange_constant_term points = .error .nonIntegerResult :=
  lagrange_error_of_dup points p q hp hq hpq hx

/-- Claim C5 counterexample: `[(1,0), (3,0), (3,0)]` has a duplicated
x-coordinate (positions 1 and 2), yet the failure is NonIntegerResult,
not DuplicateAbscissa. -/
theorem claim_C5_counterexample :
    xc [((1:Int), (0:Int)), (3, 0), (3, 0)] 1 =
      xc [((1:Int), (0:Int)), (3, 0), (3, 0)] 2 ∧
    (1 : Nat) ≠ 2 ∧
    (1 : Nat) < ([((1:Int), (0:Int)), (3, 0), (3, 0)] : List (Int × Int)).length ∧
    (2 : Nat) < ([((1:Int), (0:Int)), (3, 0), (3, 0)] : List (Int × Int)).length ∧
    lagrange_constant_term [((1:Int), (0:Int)), (3, 0), (3, 0)] =
      .error .nonIntegerResult ∧
    (Except.error InterpError.nonIntegerResult : Except InterpError Int) ≠
      .error .duplicateAbscissa := by
  refine ⟨rfl, by decide, by decide, by decide, rfl, ?_⟩
  intro h
  injection h with h2
  cases h2

/-- Claim C5 witness: the duplicate pair `[(5,1), (5,2)]`. -/
theorem claim_C5_witness :
    lagrange_constant_term [((5:Int), (1:Int)), (5, 2)] = .error .duplicateAbscissa ∨
      lagrange_constant_term [((5:Int), (1:Int)), (5, 2)] = .error .nonIntegerResult :=
  claim_C5_duplicate_fails [(5, 1), (5, 2)] 0 1 (by decide) (by decide) (by decide) rfl

/-- Claim C6 (amended): with fewer available shares than `k` the
reconstruction never returns a value; it fails with InsufficientShares
whenever the parameter check `1 ≤ k ≤ n` passes, and with
InvalidParameters otherwise. -/
theorem claim_C6_insufficient (n k : Int) (shares : List (Int × Int))
    (hlt : (shares.length : Int) < k) :
    ((1 ≤ k ∧ k ≤ n) → solve_secret n k shares = .error .insufficientShares) ∧
    (¬(1 ≤ k ∧ k ≤ n) → solve_secret n k shares = .error .invalidParameters) ∧
    (∀ v : Int, solve_secret n k shares ≠ .ok v) := by
  refine ⟨fun hpar => ?_, fun hpar => ?_, fun v hok => ?_⟩
  · rw [solve_secret, if_neg (not_not_intro hpar), if_pos hlt]
  · rw [solve_secret, if_pos hpar]
  · rw [solve_secret] at hok
    by_cases hpar : ¬(1 ≤ k ∧ k ≤ n)
    · rw [if_pos hpar] at hok
      cases hok
    · rw [if_neg hpar, if_pos hlt] at hok
      cases hok

/-- Claim C6 counterexample: for the share set `{(1,10), (2,20)}` with
`k = 3` and `n = 2` (the share count), the failure is
InvalidParameters, not InsufficientShares. -/
theorem claim_C6_counterexample :
    (([((1:Int), (10:Int)), (2, 20)] : List (Int × Int)).length : Int) < 3 ∧
    solve_secret 2 3 [((1:Int), (10:Int)), (2, 20)] = .error .invalidParameters ∧
    (Except.error SolveError.invalidParameters : Except SolveError Int) ≠
      .error .insufficientShares := by
  refine ⟨by decide, rfl, ?_⟩
  intro h
  injection h with h2
  cases h2

/-- Claim C6 witness: the spec scenario with `n = 3`, where the
parameter check passes and the result is InsufficientShares. -/
theorem claim_C6_witness :
    solve_secret 3 3 [((1:Int), (10:Int)), (2, 20)] = .error .insufficientShares :=
  (claim_C6_insufficient 3 3 [(1, 10), (2, 20)] (by decide)).1 (by decide)

/-- Claim C7: scenario A — shares `{1:300, 2:250, 3:60, 4:30, 5:6000}`
with `k = 3` reconstruct the secret `210`, the constant term of
`P(x) = -70x^2 + 160x + 210`, which passes through points 1–3. -/
theorem claim_C7_scenario_A :
    Polynomial.eval 0 (Polynomial.C 210 + Polynomial.C 160 * Polynomial.X -
      Polynomial.C 70 * Polynomial.X ^ 2 : Polynomial ℤ) = 210 ∧
    Polynomial.eval 1 (Polynomial.C 210 + Polynomial.C 160 * Polynomial.X -
      Polynomial.C 70 * Polynomial.X ^ 2 : Polynomial ℤ) = 300 ∧
    Polynomial.eval 2 (Polynomial.C 210 + Polynomial.C 160 * Polynomial.X -
      Polynomial.C 70 * Polynomial.X ^ 2 : Polynomial ℤ) = 250 ∧
    Polynomial.eval 3 (Polynomial.C 210 + Polynomial.C 160 * Polynomial.X -
      Polynomial.C 70 * Polynomial.X ^ 2 : Polynomial ℤ) = 60 ∧
    solve_secret 5 3 [((1:Int), (300:Int)), (2, 250), (3, 60), (4, 30), (5, 6000)] =
      .ok 210 := by
  refine ⟨by simp, by simp, by simp, by simp, rfl⟩

/-- Claim C8: scenario B — shares `{10:25, 20:45, 30:120}` with `k = 2`:
the pair (10,25),(20,45) votes 5, the pair (10,25),(30,120) is discarded
(NonIntegerResult), the pair (20,45),(30,120) votes -105, and the
first-encountered maximum wins the 1-1 tie, giving secret 5. -/
theorem claim_C8_scenario_B :
    lagrange_constant_term [((10:Int), (25:Int)), (20, 45)] = .ok 5 ∧
    lagrange_constant_term [((10:Int), (25:Int)), (30, 120)] =
      .error .nonIntegerResult ∧
    lagrange_constant_term [((20:Int), (45:Int)), (30, 120)] = .ok (-105) ∧
    combinations 2 [((10:Int), (25:Int)), (20, 45), (30, 120)] =
      [[(10, 25), (20, 45)], [(10, 25), (30, 120)], [(20, 45), (30, 120)]] ∧
    solve_secret 3 2 [((10:Int), (25:Int)), (20, 45), (30, 120)] = .ok 5 :=
  ⟨rfl, rfl, rfl, rfl, rfl⟩

/-- Claim C9: on a single-point list `[(x, y)]` — any integers,
including `x = 0` — `lagrange_constant_term` returns `y`: the basis
products are empty, so numerator and denominator are both 1. -/
theorem claim_C9_single_point (x y : Int) :
    lagrange_constant_term [(x, y)] = .ok y := by
  simp [lagrange_constant_term, lagrangeOuter, lagrangeInner, yc, xc,
    Int.fmod_one, Int.fdiv_one, List.range_succ]

/-- Claim C10: whenever `solve_secret` returns `v`, some k-subset of the
shares interpolates successfully to exactly `v`. -/
theorem claim_C10_winner_realized (n k : Int) (shares : List (Int × Int)) (v : Int)
    (h : solve_secret n k shares = .ok v) :
    ∃ c ∈ combinations k.toNat shares, lagrange_constant_term c = .ok v := by
  obtain ⟨c, hm⟩ := solve_secret_ok_elim n k shares v h
  have hv := buildTally_key_mem k.toNat shares v c (mostCommon_mem _ _ hm)
  rw [candidateSecrets] at hv
  obtain ⟨combo, hc, ht⟩ := List.mem_filterMap.mp hv
  exact ⟨combo, hc, (toOption_eq_some_iff _ _).mp ht⟩

/-- Claim C10 witness: a one-share reconstruction returning `5`. -/
theorem claim_C10_witness :
    ∃ c ∈ combinations (1:Int).toNat [((2:Int), (5:Int))],
      lagrange_constant_term c = .ok 5 :=
  claim_C10_winner_realized 1 1 [(2, 5)] 5 rfl

end Processor
